import Mathlib

/-!
Shallow embedding of the SQUID-rs sortable-ID generator (`src/versions/v0.rs`
and `src/lib.rs`) together with proofs about its specification.

The Rust code is a single state machine `SQUIDv0 { device_uuid, counter,
last_timestamp }`:

* `SQUIDv0::new(device_uuid: Option<&str>)` stores the given identifier, or
  the result of `machine_uuid::get()`, or the all-zero fallback string; the
  counter and last timestamp start at 0.
* `SQUIDv0::generate(&mut self)` reads the wall clock in milliseconds since
  the Unix epoch (panicking when the clock reports a time before the epoch,
  before any mutation happens), bumps the counter when the reading equals
  `last_timestamp` and otherwise resets the counter to 0 and stores the new
  reading, and returns `format!("{}-{}-{}", device_uuid, timestamp,
  format!("{:04}", counter))`.

The clock and the machine-identity provider are the only external effects, so
the embedding passes their outcomes as explicit arguments.  The timestamp is
a Rust `u128` of milliseconds; `Duration::as_millis` can never overflow it,
so a plain `Nat` is an exact model.  The counter is a Rust `usize`; we model
it as an unbounded `Nat`, since reaching the `usize` boundary would need
2^64 calls observing a single millisecond and Rust's checked arithmetic
would abort rather than emit an identifier there.
-/

namespace Squid

/-- The decimal digits of `n`, most significant first, via structural
recursion on a fuel argument (`fuel > n` suffices because the recursive call
is on `n / 10`).  This models the digit sequence produced by Rust's decimal
`Display` formatting. -/
def decDigitsAux : Nat → Nat → List Nat
  | 0, _ => []
  | fuel + 1, n => if n < 10 then [n] else decDigitsAux fuel (n / 10) ++ [n % 10]

/-- The decimal digits of `n`, most significant first. -/
def decDigits (n : Nat) : List Nat := decDigitsAux (n + 1) n

/-- The character for a decimal digit `d < 10`, as Rust's formatter emits it. -/
def digitChar (d : Nat) : Char := Char.ofNat (48 + d)

/-- The decimal rendering of `n`, modelling Rust's `format!("{}", n)`. -/
def natRepr (n : Nat) : String := List.asString ((decDigits n).map digitChar)

/-- Left-pad a string with `'0'` to a minimum width of 4 characters,
modelling Rust's `format!("{:04}", _)` (a minimum width, not a truncation). -/
def pad4 (s : String) : String :=
  List.asString (List.replicate (4 - s.data.length) '0' ++ s.data)

/-- Translation of the Rust struct `SQUIDv0`. -/
structure SQUIDv0 where
  device_uuid : String
  counter : Nat
  last_timestamp : Nat
deriving DecidableEq

/-- The all-zero fallback identifier used when machine-identity resolution
fails. -/
def fallbackUuid : String := "00000000-0000-0000-0000-000000000000"

/-- Translation of `SQUIDv0::new`.  The outcome of the external call
`machine_uuid::get()` is passed explicitly as `machine_uuid_get`; it is
consulted only when no explicit identifier is supplied, exactly as in the
source's `map_or_else`. -/
def new (device_uuid : Option String) (machine_uuid_get : Except Unit String) :
    SQUIDv0 :=
  let uuid :=
    match device_uuid with
    | some s => s
    | none =>
      match machine_uuid_get with
      | Except.ok u => u
      | Except.error _ => fallbackUuid
  { device_uuid := uuid, counter := 0, last_timestamp := 0 }

/-- The outcome of `SystemTime::now().duration_since(UNIX_EPOCH)`: either the
clock reports a time before the Unix epoch (the `Err` case, on which the
source panics), or a number of whole milliseconds since the epoch. -/
inductive ClockReading where
  | beforeEpoch
  | atMillis (millis : Nat)
deriving DecidableEq

/-- The successful path of `SQUIDv0::generate`, given the observed clock
reading `timestamp` in milliseconds: the updated state together with the
produced identifier string. -/
def genStep (s : SQUIDv0) (timestamp : Nat) : String × SQUIDv0 :=
  let s' :=
    if timestamp = s.last_timestamp then
      { s with counter := s.counter + 1 }
    else
      { s with counter := 0, last_timestamp := timestamp }
  let counter_str := pad4 (natRepr s'.counter)
  (s'.device_uuid ++ "-" ++ natRepr timestamp ++ "-" ++ counter_str, s')

/-- Translation of `SQUIDv0::generate`.  When the clock reports a time before
the Unix epoch the source panics on `.expect("Time went backwards")` before
any mutation: no string is produced and the state is unchanged (`none`).
Otherwise it behaves as `genStep`. -/
def generate (s : SQUIDv0) (clock : ClockReading) : Option String × SQUIDv0 :=
  match clock with
  | ClockReading.beforeEpoch => (none, s)
  | ClockReading.atMillis timestamp =>
    ((genStep s timestamp).1 |> some, (genStep s timestamp).2)

/-- Run `generate` over a list of successful clock readings, collecting the
produced identifier strings and the final state. -/
def runGen (s : SQUIDv0) : List Nat → List String × SQUIDv0
  | [] => ([], s)
  | t :: ts =>
    let p := genStep s t
    let r := runGen p.2 ts
    (p.1 :: r.1, r.2)

/-- The `(last_timestamp, counter)` pair recorded by each successive call of
`generate`, i.e. the state components right after each call. -/
def runPairs (s : SQUIDv0) : List Nat → List (Nat × Nat)
  | [] => []
  | t :: ts =>
    let p := genStep s t
    (p.2.last_timestamp, p.2.counter) :: runPairs p.2 ts

/-- The identifier string emitted for device `dev`, timestamp `t` and counter
value `c`; `genStep` always produces strings of this shape. -/
def mkId (dev : String) (t c : Nat) : String :=
  dev ++ "-" ++ natRepr t ++ "-" ++ pad4 (natRepr c)

/-- Strict lexicographic order on `(last_timestamp, counter)` pairs. -/
def pairLt (p q : Nat × Nat) : Prop :=
  p.1 < q.1 ∨ (p.1 = q.1 ∧ p.2 < q.2)

instance : DecidableRel pairLt := fun p q =>
  inferInstanceAs (Decidable (p.1 < q.1 ∨ (p.1 = q.1 ∧ p.2 < q.2)))

/-- The fuel argument of `decDigitsAux` is irrelevant as long as it exceeds
the number being rendered. -/
theorem decDigitsAux_congr :
    ∀ n f₁ f₂, n < f₁ → n < f₂ → decDigitsAux f₁ n = decDigitsAux f₂ n := by
  intro n
  induction n using Nat.strong_induction_on with
  | _ n ih =>
    intro f₁ f₂ h₁ h₂
    obtain ⟨g₁, rfl⟩ : ∃ g, f₁ = g + 1 := ⟨f₁ - 1, by omega⟩
    obtain ⟨g₂, rfl⟩ : ∃ g, f₂ = g + 1 := ⟨f₂ - 1, by omega⟩
    simp only [decDigitsAux]
    split
    · rfl
    · rename_i hn
      have hdiv : n / 10 < n := Nat.div_lt_self (by omega) (by omega)
      rw [ih (n / 10) hdiv g₁ g₂ (by omega) (by omega)]

/-- Unfolding equation for `decDigits`. -/
theorem decDigits_eq (n : Nat) :
    decDigits n = if n < 10 then [n] else decDigits (n / 10) ++ [n % 10] := by
  unfold decDigits
  conv_lhs => rw [decDigitsAux]
  split
  · rfl
  · rename_i hn
    have hdiv : n / 10 < n := Nat.div_lt_self (by omega) (by omega)
    rw [decDigitsAux_congr (n / 10) n (n / 10 + 1) (by omega) (by omega)]

theorem decDigits_ne_nil (n : Nat) : decDigits n ≠ [] := by
  rw [decDigits_eq]
  split <;> simp

theorem decDigits_length_pos (n : Nat) : 0 < (decDigits n).length :=
  List.length_pos.mpr (decDigits_ne_nil n)

/-- Every entry of `decDigits n` is a decimal digit. -/
theorem decDigits_mem_lt : ∀ n, ∀ d ∈ decDigits n, d < 10 := by
  intro n
  induction n using Nat.strong_induction_on with
  | _ n ih =>
    intro d hd
    rw [decDigits_eq] at hd
    by_cases h : n < 10
    · simp only [if_pos h, List.mem_singleton] at hd
      omega
    · simp only [if_neg h, List.mem_append, List.mem_singleton] at hd
      rcases hd with hd | hd
      · exact ih (n / 10) (Nat.div_lt_self (by omega) (by omega)) d hd
      · omega

/-- A number below `10 ^ k` has at most `k` decimal digits (for `k ≥ 1`). -/
theorem decDigits_length_le : ∀ k n, 1 ≤ k → n < 10 ^ k → (decDigits n).length ≤ k := by
  intro k
  induction k with
  | zero => omega
  | succ k ih =>
    intro n _ hn
    rw [decDigits_eq]
    by_cases h : n < 10
    · rw [if_pos h]
      simp only [List.length_singleton]
      omega
    · simp only [if_neg h, List.length_append, List.length_singleton]
      have hk : 1 ≤ k := by
        rcases Nat.eq_zero_or_pos k with hk0 | hk0
        · subst hk0
          norm_num at hn
          omega
        · exact hk0
      have hdiv : n / 10 < 10 ^ k := by
        rw [Nat.div_lt_iff_lt_mul (by omega)]
        calc n < 10 ^ (k + 1) := hn
        _ = 10 ^ k * 10 := by ring
      have := ih (n / 10) hk hdiv
      omega

/-- A number at least `10 ^ k` has more than `k` decimal digits. -/
theorem decDigits_length_ge : ∀ k n, 10 ^ k ≤ n → k + 1 ≤ (decDigits n).length := by
  intro k
  induction k with
  | zero => intro n _; have := decDigits_length_pos n; omega
  | succ k ih =>
    intro n hn
    have h10 : 10 ≤ n := by
      have : 10 ^ 1 ≤ 10 ^ (k + 1) := Nat.pow_le_pow_right (by omega) (by omega)
      simp at this
      omega
    rw [decDigits_eq, if_neg (by omega)]
    simp only [List.length_append, List.length_singleton]
    have hdiv : 10 ^ k ≤ n / 10 := by
      rw [Nat.le_div_iff_mul_le (by omega)]
      calc 10 ^ k * 10 = 10 ^ (k + 1) := by ring
      _ ≤ n := hn
    have := ih (n / 10) hdiv
    omega

/-- Digit count is monotone in the rendered number. -/
theorem decDigits_length_mono : ∀ b a, a ≤ b → (decDigits a).length ≤ (decDigits b).length := by
  intro b
  induction b using Nat.strong_induction_on with
  | _ b ih =>
    intro a hab
    by_cases hb : b < 10
    · rw [decDigits_eq a, decDigits_eq b, if_pos (by omega), if_pos hb]
      simp
    · by_cases ha : a < 10
      · rw [decDigits_eq a, if_pos ha]
        have := decDigits_length_pos b
        simp only [List.length_singleton]
        rw [decDigits_eq b, if_neg hb]
        simp only [List.length_append, List.length_singleton]
        have := decDigits_length_pos (b / 10)
        omega
      · rw [decDigits_eq a, decDigits_eq b, if_neg ha, if_neg hb]
        simp only [List.length_append, List.length_singleton]
        have hdiv : b / 10 < b := Nat.div_lt_self (by omega) (by omega)
        have := ih (b / 10) hdiv (a / 10) (Nat.div_le_div_right hab)
        omega

/-- The leading digit of a positive number is positive. -/
theorem decDigits_head_pos : ∀ n, 1 ≤ n → ∃ d t, decDigits n = d :: t ∧ 0 < d := by
  intro n
  induction n using Nat.strong_induction_on with
  | _ n ih =>
    intro hn
    rw [decDigits_eq]
    by_cases h : n < 10
    · exact ⟨n, [], by simp [h], hn⟩
    · obtain ⟨d, t, ht, hd⟩ :=
        ih (n / 10) (Nat.div_lt_self (by omega) (by omega)) (by omega)
      exact ⟨d, t ++ [n % 10], by simp [if_neg h, ht], hd⟩

/-- Numeric value of a digit list (most significant first). -/
def valDigits (ds : List Nat) : Nat := ds.foldl (fun a d => 10 * a + d) 0

theorem valDigits_decDigits : ∀ n, valDigits (decDigits n) = n := by
  intro n
  induction n using Nat.strong_induction_on with
  | _ n ih =>
    rw [decDigits_eq]
    by_cases h : n < 10
    · simp [if_pos h, valDigits]
    · rw [if_neg h]
      unfold valDigits
      rw [List.foldl_append]
      have := ih (n / 10) (Nat.div_lt_self (by omega) (by omega))
      unfold valDigits at this
      rw [this]
      simp only [List.foldl_cons, List.foldl_nil]
      omega

/-- Decimal rendering is injective on digit lists. -/
theorem decDigits_inj {a b : Nat} (h : decDigits a = decDigits b) : a = b := by
  have := valDigits_decDigits a
  rw [h, valDigits_decDigits] at this
  omega

theorem digitChar_lt_digitChar {x y : Nat} (hx : x < 10) (hy : y < 10) (h : x < y) :
    digitChar x < digitChar y := by
  interval_cases x <;> interval_cases y <;> first | omega | decide

theorem digitChar_inj {x y : Nat} (hx : x < 10) (hy : y < 10)
    (h : digitChar x = digitChar y) : x = y := by
  rcases Nat.lt_trichotomy x y with hlt | heq | hgt
  · exact absurd h (ne_of_lt (digitChar_lt_digitChar hx hy hlt))
  · exact heq
  · exact absurd h.symm (ne_of_lt (digitChar_lt_digitChar hy hx hgt))

theorem digitChar_ne_hyphen {x : Nat} (hx : x < 10) : digitChar x ≠ '-' := by
  interval_cases x <;> decide

/-- Appending arbitrary suffixes to lexicographically related lists of equal
length preserves the relation. -/
theorem lex_append_of_length_eq {α : Type} {r : α → α → Prop} :
    ∀ {l₁ l₂ : List α}, l₁.length = l₂.length → List.Lex r l₁ l₂ →
      ∀ t₁ t₂, List.Lex r (l₁ ++ t₁) (l₂ ++ t₂) := by
  intro l₁ l₂ hlen h
  induction h with
  | nil => simp at hlen
  | rel hab => intro t₁ t₂; exact List.Lex.rel hab
  | cons h ih =>
    intro t₁ t₂
    exact List.Lex.cons (ih (by simpa using hlen) t₁ t₂)

/-- `digitChar` transports strict lexicographic order from digit lists to
character lists. -/
theorem lex_map_digitChar :
    ∀ {l₁ l₂ : List Nat}, List.Lex (· < ·) l₁ l₂ →
      (∀ d ∈ l₁, d < 10) → (∀ d ∈ l₂, d < 10) →
      List.Lex (· < ·) (l₁.map digitChar) (l₂.map digitChar) := by
  intro l₁ l₂ h
  induction h with
  | nil =>
    intro _ _
    simp only [List.map_nil, List.map_cons]
    exact List.Lex.nil
  | rel hab =>
    intro h₁ h₂
    simp only [List.map_cons]
    exact List.Lex.rel
      (digitChar_lt_digitChar (h₁ _ (List.mem_cons_self _ _)) (h₂ _ (List.mem_cons_self _ _)) hab)
  | cons h ih =>
    intro h₁ h₂
    simp only [List.map_cons]
    exact List.Lex.cons
      (ih (fun d hd => h₁ d (List.mem_cons_of_mem _ hd))
        (fun d hd => h₂ d (List.mem_cons_of_mem _ hd)))

theorem map_digitChar_inj :
    ∀ {l₁ l₂ : List Nat}, (∀ d ∈ l₁, d < 10) → (∀ d ∈ l₂, d < 10) →
      l₁.map digitChar = l₂.map digitChar → l₁ = l₂ := by
  intro l₁
  induction l₁ with
  | nil =>
    intro l₂ _ _ h
    cases l₂ with
    | nil => rfl
    | cons b t => simp at h
  | cons a t ih =>
    intro l₂ h₁ h₂ h
    cases l₂ with
    | nil => simp at h
    | cons b t₂ =>
      simp only [List.map_cons, List.cons.injEq] at h
      have hab : a = b :=
        digitChar_inj (h₁ _ (List.mem_cons_self _ _)) (h₂ _ (List.mem_cons_self _ _)) h.1
      have ht : t = t₂ :=
        ih (fun d hd => h₁ d (List.mem_cons_of_mem _ hd))
          (fun d hd => h₂ d (List.mem_cons_of_mem _ hd)) h.2
      rw [hab, ht]

/-- Equal-width decimal renderings are lexicographically ordered like their
values. -/
theorem decDigits_lex_of_lt :
    ∀ b a, a < b → (decDigits a).length = (decDigits b).length →
      List.Lex (· < ·) (decDigits a) (decDigits b) := by
  intro b
  induction b using Nat.strong_induction_on with
  | _ b ih =>
    intro a hab hlen
    by_cases hb : b < 10
    · rw [decDigits_eq a, decDigits_eq b, if_pos (by omega), if_pos hb]
      exact List.Lex.rel hab
    · by_cases ha : a < 10
      · exfalso
        rw [decDigits_eq a, decDigits_eq b, if_pos ha, if_neg hb] at hlen
        simp only [List.length_singleton, List.length_append] at hlen
        have := decDigits_length_pos (b / 10)
        omega
      · have hlen' : (decDigits (a / 10)).length = (decDigits (b / 10)).length := by
          rw [decDigits_eq a, decDigits_eq b, if_neg ha, if_neg hb] at hlen
          simp only [List.length_append, List.length_singleton] at hlen
          omega
        rw [decDigits_eq a, decDigits_eq b, if_neg ha, if_neg hb]
        have hdivle : a / 10 ≤ b / 10 := Nat.div_le_div_right (by omega)
        rcases Nat.lt_or_ge (a / 10) (b / 10) with hdiv | hdiv
        · exact lex_append_of_length_eq hlen'
            (ih (b / 10) (Nat.div_lt_self (by omega) (by omega)) (a / 10) hdiv hlen') _ _
        · have hdiveq : a / 10 = b / 10 := by omega
          have hmod : a % 10 < b % 10 := by
            have h₁ := Nat.div_add_mod a 10
            have h₂ := Nat.div_add_mod b 10
            omega
          rw [hdiveq]
          exact List.Lex.append_left _ (List.Lex.rel hmod) _

/-- Left-pad a digit list with zeros to a minimum width `w`. -/
def padTo (w : Nat) (ds : List Nat) : List Nat :=
  List.replicate (w - ds.length) 0 ++ ds

theorem padTo_length {w : Nat} {ds : List Nat} (h : ds.length ≤ w) :
    (padTo w ds).length = w := by
  simp only [padTo, List.length_append, List.length_replicate]
  omega

theorem padTo_mem_lt {w : Nat} {ds : List Nat} (h : ∀ d ∈ ds, d < 10) :
    ∀ d ∈ padTo w ds, d < 10 := by
  intro d hd
  rcases List.mem_append.mp hd with hd | hd
  · have := List.eq_of_mem_replicate hd
    omega
  · exact h d hd

theorem valDigits_padTo (w : Nat) (ds : List Nat) :
    valDigits (padTo w ds) = valDigits ds := by
  unfold padTo valDigits
  rw [List.foldl_append]
  have : ∀ k, List.foldl (fun a d => 10 * a + d) 0 (List.replicate k 0) = 0 := by
    intro k
    induction k with
    | zero => rfl
    | succ k ihk => simp [List.replicate_succ, ihk]
  rw [this]

/-- Zero-padding to a common minimum width preserves the numeric order of
decimal renderings. -/
theorem padTo_lex {a b w : Nat} (hab : a < b) (hb : (decDigits b).length ≤ w) :
    List.Lex (· < ·) (padTo w (decDigits a)) (padTo w (decDigits b)) := by
  have hmono : (decDigits a).length ≤ (decDigits b).length :=
    decDigits_length_mono b a (by omega)
  rcases Nat.lt_or_ge (decDigits a).length (decDigits b).length with hlt | hge
  · have hsplit : w - (decDigits a).length =
        (w - (decDigits b).length) + ((decDigits b).length - (decDigits a).length) := by
      omega
    unfold padTo
    rw [hsplit, List.replicate_add, List.append_assoc]
    apply List.Lex.append_left
    obtain ⟨k, hk⟩ : ∃ k, (decDigits b).length - (decDigits a).length = k + 1 :=
      ⟨(decDigits b).length - (decDigits a).length - 1, by omega⟩
    rw [hk]
    obtain ⟨d, t, ht, hd⟩ := decDigits_head_pos b (by omega)
    rw [ht, List.replicate_succ, List.cons_append]
    exact List.Lex.rel hd
  · have heq : (decDigits a).length = (decDigits b).length := by omega
    unfold padTo
    rw [heq]
    exact List.Lex.append_left _ (decDigits_lex_of_lt b a hab heq) _

/-- Zero-padding keeps decimal renderings injective. -/
theorem padTo_inj {a b w : Nat} (h : padTo w (decDigits a) = padTo w (decDigits b)) :
    a = b := by
  have := congrArg valDigits h
  rw [valDigits_padTo, valDigits_padTo, valDigits_decDigits, valDigits_decDigits] at this
  exact this

theorem natRepr_data (n : Nat) : (natRepr n).data = (decDigits n).map digitChar := rfl

theorem pad4_natRepr_data (c : Nat) :
    (pad4 (natRepr c)).data = (padTo 4 (decDigits c)).map digitChar := by
  have hdata : ∀ l : List Char, (List.asString l).data = l := fun _ => rfl
  have hzero : '0' = digitChar 0 := by decide
  simp only [pad4, natRepr, padTo, hdata, List.length_map, List.map_append,
    List.map_replicate, hzero]

theorem pad4_natRepr_length_of_lt {c : Nat} (h : c < 10000) :
    (pad4 (natRepr c)).length = 4 := by
  have hlen : (decDigits c).length ≤ 4 := decDigits_length_le 4 c (by omega) (by norm_num; omega)
  have : (pad4 (natRepr c)).data.length = 4 := by
    rw [pad4_natRepr_data, List.length_map]
    exact padTo_length hlen
  simpa using this

theorem pad4_natRepr_of_ge {c : Nat} (h : 10000 ≤ c) :
    pad4 (natRepr c) = natRepr c := by
  have hlen : 4 ≤ (decDigits c).length := by
    have := decDigits_length_ge 4 c (by norm_num; omega)
    omega
  have hdata : (pad4 (natRepr c)).data = (natRepr c).data := by
    rw [pad4_natRepr_data, natRepr_data]
    unfold padTo
    have : 4 - (decDigits c).length = 0 := by omega
    rw [this]
    simp
  exact String.ext hdata

theorem mkId_data (dev : String) (t c : Nat) :
    (mkId dev t c).data =
      dev.data ++ '-' :: ((natRepr t).data ++ '-' :: (pad4 (natRepr c)).data) := by
  simp [mkId, String.data_append]

/-- Strings agreeing on a leading separator-free block followed by the
separator can be split unambiguously. -/
theorem append_sep_inj {c : Char} :
    ∀ {xs xs' ys ys' : List Char}, c ∉ xs → c ∉ xs' →
      xs ++ c :: ys = xs' ++ c :: ys' → xs = xs' ∧ ys = ys' := by
  intro xs
  induction xs with
  | nil =>
    intro xs' ys ys' _ h₂ h
    cases xs' with
    | nil => simpa using h
    | cons a t =>
      simp only [List.nil_append, List.cons_append, List.cons.injEq] at h
      exact absurd (by rw [h.1]; exact List.mem_cons_self a t) h₂
  | cons x t ih =>
    intro xs' ys ys' h₁ h₂ h
    cases xs' with
    | nil =>
      simp only [List.cons_append, List.nil_append, List.cons.injEq] at h
      exact absurd (by rw [← h.1]; exact List.mem_cons_self x t) h₁
    | cons a t₂ =>
      simp only [List.cons_append, List.cons.injEq] at h
      obtain ⟨ht, hy⟩ := ih (fun hc => h₁ (List.mem_cons_of_mem _ hc))
        (fun hc => h₂ (List.mem_cons_of_mem _ hc)) h.2
      exact ⟨by rw [h.1, ht], hy⟩

theorem hyphen_not_mem_natRepr (n : Nat) : '-' ∉ (natRepr n).data := by
  rw [natRepr_data]
  intro hmem
  obtain ⟨d, hd, hdc⟩ := List.mem_map.mp hmem
  exact digitChar_ne_hyphen (decDigits_mem_lt n d hd) hdc

/-- The identifier string determines the timestamp and counter fields. -/
theorem mkId_inj (dev : String) {t₁ c₁ t₂ c₂ : Nat}
    (h : mkId dev t₁ c₁ = mkId dev t₂ c₂) : t₁ = t₂ ∧ c₁ = c₂ := by
  have hdata := congrArg String.data h
  rw [mkId_data, mkId_data] at hdata
  have h₁ := List.append_cancel_left hdata
  simp only [List.cons.injEq, true_and] at h₁
  obtain ⟨hT, hP⟩ := append_sep_inj (hyphen_not_mem_natRepr t₁) (hyphen_not_mem_natRepr t₂) h₁
  constructor
  · exact decDigits_inj
      (map_digitChar_inj (decDigits_mem_lt t₁) (decDigits_mem_lt t₂) (by simpa [natRepr_data] using hT))
  · have hP' : (padTo 4 (decDigits c₁)).map digitChar = (padTo 4 (decDigits c₂)).map digitChar := by
      rw [← pad4_natRepr_data, ← pad4_natRepr_data]
      exact hP
    exact padTo_inj
      (map_digitChar_inj (padTo_mem_lt (decDigits_mem_lt c₁)) (padTo_mem_lt (decDigits_mem_lt c₂)) hP')

/-- Identifier strings from the same device are ordered like their
`(timestamp, counter)` pairs, as long as the timestamp widths agree and the
counters fit in the four-digit field. -/
theorem mkId_lt_mkId (dev : String) {t₁ c₁ t₂ c₂ : Nat}
    (hw : (decDigits t₁).length = (decDigits t₂).length)
    (hc₂ : c₂ ≤ 9999)
    (h : pairLt (t₁, c₁) (t₂, c₂)) :
    mkId dev t₁ c₁ < mkId dev t₂ c₂ := by
  rw [String.lt_iff_toList_lt]
  show List.Lex (· < ·) (mkId dev t₁ c₁).data (mkId dev t₂ c₂).data
  rw [mkId_data, mkId_data]
  apply List.Lex.append_left
  apply List.Lex.cons
  rcases h with hlt | ⟨heq, hclt⟩
  · exact lex_append_of_length_eq
      (by simp only [natRepr_data, List.length_map]; exact hw)
      (by
        rw [natRepr_data, natRepr_data]
        exact lex_map_digitChar (decDigits_lex_of_lt t₂ t₁ hlt hw)
          (decDigits_mem_lt t₁) (decDigits_mem_lt t₂)) _ _
  · simp only at heq
    subst heq
    apply List.Lex.append_left
    apply List.Lex.cons
    rw [pad4_natRepr_data, pad4_natRepr_data]
    have hlen : (decDigits c₂).length ≤ 4 :=
      decDigits_length_le 4 c₂ (by omega) (by norm_num; omega)
    exact lex_map_digitChar (padTo_lex (by simpa using hclt) hlen)
      (padTo_mem_lt (decDigits_mem_lt c₁)) (padTo_mem_lt (decDigits_mem_lt c₂))

theorem natRepr_length (n : Nat) : (natRepr n).length = (decDigits n).length := by
  unfold natRepr
  rw [List.length_asString, List.length_map]

theorem genStep_counter (s : SQUIDv0) (t : Nat) :
    (genStep s t).2.counter = if t = s.last_timestamp then s.counter + 1 else 0 := by
  unfold genStep
  split <;> rfl

theorem genStep_last (s : SQUIDv0) (t : Nat) :
    (genStep s t).2.last_timestamp = t := by
  unfold genStep
  split
  · rename_i h
    exact h.symm
  · rfl

theorem genStep_dev (s : SQUIDv0) (t : Nat) :
    (genStep s t).2.device_uuid = s.device_uuid := by
  unfold genStep
  split <;> rfl

theorem genStep_fst (s : SQUIDv0) (t : Nat) :
    (genStep s t).1 = mkId s.device_uuid t ((genStep s t).2.counter) := by
  unfold genStep mkId
  split <;> rfl

theorem runPairs_cons (s : SQUIDv0) (t : Nat) (ts : List Nat) :
    runPairs s (t :: ts) =
      (t, (genStep s t).2.counter) :: runPairs (genStep s t).2 ts := by
  show ((genStep s t).2.last_timestamp, (genStep s t).2.counter) :: _ = _
  rw [genStep_last]

theorem runGen_fst_eq : ∀ (ts : List Nat) (s : SQUIDv0),
    (runGen s ts).1 = (runPairs s ts).map (fun p => mkId s.device_uuid p.1 p.2) := by
  intro ts
  induction ts with
  | nil => intro s; rfl
  | cons t ts ih =>
    intro s
    show (genStep s t).1 :: (runGen (genStep s t).2 ts).1 = _
    rw [runPairs_cons, List.map_cons, ih (genStep s t).2, genStep_fst, genStep_dev]

theorem runPairs_fst_mem : ∀ (ts : List Nat) (s : SQUIDv0) (p : Nat × Nat),
    p ∈ runPairs s ts → p.1 ∈ ts := by
  intro ts
  induction ts with
  | nil =>
    intro s p h
    simp [runPairs] at h
  | cons t ts ih =>
    intro s p h
    rw [runPairs_cons] at h
    rcases List.mem_cons.mp h with h | h
    · rw [h]
      exact List.mem_cons_self _ _
    · exact List.mem_cons_of_mem _ (ih _ p h)

/-- As long as the observed clock readings are non-decreasing, the recorded
`(last_timestamp, counter)` pairs are strictly increasing lexicographically. -/
theorem runPairs_chain_of_mono : ∀ (ts : List Nat) (s : SQUIDv0),
    List.Chain' (· ≤ ·) ts → List.Chain' pairLt (runPairs s ts) := by
  intro ts
  induction ts with
  | nil =>
    intro s _
    exact List.chain'_nil
  | cons t ts ih =>
    intro s hc
    rw [runPairs_cons, List.chain'_cons']
    refine ⟨?_, ih (genStep s t).2 (List.Chain'.tail hc)⟩
    intro q hq
    cases ts with
    | nil => simp [runPairs] at hq
    | cons t₂ ts₂ =>
      rw [runPairs_cons] at hq
      simp only [List.head?_cons, Option.mem_def, Option.some.injEq] at hq
      subst hq
      have hle : t ≤ t₂ := (List.chain'_cons.mp hc).1
      rw [genStep_counter (genStep s t).2 t₂, genStep_last s t]
      simp only [pairLt]
      by_cases he : t₂ = t
      · rw [if_pos he]
        right
        exact ⟨he.symm, by omega⟩
      · rw [if_neg he]
        left
        omega

/-- A membership-aware strengthening of `List.Chain'.imp`. -/
theorem chain'_imp_mem {α : Type} {R S : α → α → Prop} :
    ∀ {l : List α}, (∀ a ∈ l, ∀ b ∈ l, R a b → S a b) → List.Chain' R l →
      List.Chain' S l := by
  intro l
  induction l with
  | nil =>
    intro _ _
    exact List.chain'_nil
  | cons a l ih =>
    intro H h
    cases l with
    | nil => simp
    | cons b l₂ =>
      rw [List.chain'_cons] at h ⊢
      refine ⟨H a (by simp) b (by simp) h.1, ih ?_ h.2⟩
      intro x hx y hy hr
      exact H x (List.mem_cons_of_mem _ hx) y (List.mem_cons_of_mem _ hy) hr

instance : IsTrans (Nat × Nat) pairLt := by
  constructor
  intro a b c hab hbc
  simp only [pairLt] at *
  omega

/-- Repeated calls observing the constant timestamp already recorded in the
state emit consecutive counter values. -/
theorem runGen_const : ∀ (k : Nat) (s : SQUIDv0) (t : Nat), s.last_timestamp = t →
    (runGen s (List.replicate k t)).1 =
      (List.range k).map (fun i => mkId s.device_uuid t (s.counter + 1 + i)) := by
  intro k
  induction k with
  | zero =>
    intro s t _
    rfl
  | succ k ih =>
    intro s t hlast
    rw [List.replicate_succ]
    show (genStep s t).1 :: (runGen (genStep s t).2 (List.replicate k t)).1 = _
    have hc : (genStep s t).2.counter = s.counter + 1 := by
      rw [genStep_counter, if_pos hlast.symm]
    rw [ih (genStep s t).2 t (genStep_last s t), hc, genStep_dev, genStep_fst, hc]
    rw [List.range_succ_eq_map]
    simp only [List.map_cons, List.map_map, Nat.add_zero]
    congr 1
    apply List.map_congr_left
    intro i _
    simp only [Function.comp_apply]
    congr 1
    omega

/-- Concrete run of the §8 padding scenario: one call rolls the timestamp to
5 ms, then 10000 further calls at 5 ms emit counters 1, 2, …, 10000. -/
theorem scenario_outputs :
    (runGen (new (some "X") (Except.error ())) (List.replicate 10001 5)).1 =
      mkId "X" 5 0 :: (List.range 10000).map (fun i => mkId "X" 5 (0 + 1 + i)) := by
  rw [show (10001 : Nat) = 10000 + 1 from by norm_num, List.replicate_succ]
  show (genStep (new (some "X") (Except.error ())) 5).1 ::
      (runGen (genStep (new (some "X") (Except.error ())) 5).2
        (List.replicate 10000 5)).1 = _
  have hstep : (genStep (new (some "X") (Except.error ())) 5).2 =
      (⟨"X", 0, 5⟩ : SQUIDv0) := by decide
  rw [hstep, runGen_const 10000 ⟨"X", 0, 5⟩ 5 rfl]
  congr 1

theorem scenario_out_9999 :
    (runGen (new (some "X") (Except.error ())) (List.replicate 10001 5)).1[9999]? =
      some "X-5-9999" := by
  rw [scenario_outputs, show (9999 : Nat) = 9998 + 1 from by norm_num,
    List.getElem?_cons_succ, List.getElem?_map,
    List.getElem?_range (by norm_num : (9998 : Nat) < 10000)]
  show some (mkId "X" 5 (0 + 1 + 9998)) = some "X-5-9999"
  decide

theorem scenario_out_10000 :
    (runGen (new (some "X") (Except.error ())) (List.replicate 10001 5)).1[10000]? =
      some "X-5-10000" := by
  rw [scenario_outputs, show (10000 : Nat) = 9999 + 1 from by norm_num,
    List.getElem?_cons_succ, List.getElem?_map,
    List.getElem?_range (by norm_num : (9999 : Nat) < 10000)]
  show some (mkId "X" 5 (0 + 1 + 9999)) = some "X-5-10000"
  decide

/-- C1: for every SQUIDv0 instance, if successive calls to generate observe
clock readings that never decrease, the decimal rendering of the timestamp
keeps the same digit width across all calls, and the counter never exceeds
9999 within any single millisecond, then the sequence of returned strings is
lexicographically non-decreasing. -/
theorem generate_lex_nondecreasing (s : SQUIDv0) (ts : List Nat)
    (hclock : List.Chain' (· ≤ ·) ts)
    (hwidth : ∀ t₁ ∈ ts, ∀ t₂ ∈ ts, (natRepr t₁).length = (natRepr t₂).length)
    (hctr : ∀ p ∈ runPairs s ts, p.2 ≤ 9999) :
    List.Chain' (· ≤ ·) (runGen s ts).1 := by
  rw [runGen_fst_eq, List.chain'_map]
  apply chain'_imp_mem ?_ (runPairs_chain_of_mono ts s hclock)
  intro p hp q hq hpq
  apply le_of_lt
  apply mkId_lt_mkId
  · have hw := hwidth p.1 (runPairs_fst_mem ts s p hp) q.1 (runPairs_fst_mem ts s q hq)
    rw [natRepr_length, natRepr_length] at hw
    exact hw
  · exact hctr q hq
  · exact hpq

theorem generate_lex_nondecreasing_witness :
    List.Chain' (· ≤ ·) [1000, 1000, 1001] ∧
    (∀ t₁ ∈ [1000, 1000, 1001], ∀ t₂ ∈ [1000, 1000, 1001],
      (natRepr t₁).length = (natRepr t₂).length) ∧
    (∀ p ∈ runPairs (new (some "A") (Except.error ())) [1000, 1000, 1001],
      p.2 ≤ 9999) ∧
    List.Chain' (· ≤ ·)
      (runGen (new (some "A") (Except.error ())) [1000, 1000, 1001]).1 :=
  ⟨by simp [List.chain'_cons], by decide, by decide,
    generate_lex_nondecreasing (new (some "A") (Except.error ())) [1000, 1000, 1001]
      (by simp [List.chain'_cons]) (by decide) (by decide)⟩

/-- C2: for every SQUIDv0 instance and every sequence of calls with
non-decreasing clock readings and per-millisecond counters within the
counter's range, the returned strings are pairwise distinct. -/
theorem generate_pairwise_distinct (s : SQUIDv0) (ts : List Nat)
    (hclock : List.Chain' (· ≤ ·) ts)
    (_hrange : ∀ p ∈ runPairs s ts, p.2 < 2 ^ 64) :
    List.Pairwise (· ≠ ·) (runGen s ts).1 := by
  rw [runGen_fst_eq, List.pairwise_map]
  have hpw : List.Pairwise pairLt (runPairs s ts) :=
    List.chain'_iff_pairwise.mp (runPairs_chain_of_mono ts s hclock)
  apply hpw.imp
  intro p q hpq heq
  obtain ⟨h₁, h₂⟩ := mkId_inj s.device_uuid heq
  simp only [pairLt] at hpq
  omega

theorem generate_pairwise_distinct_witness :
    List.Chain' (· ≤ ·) [1000, 1000, 1001] ∧
    (∀ p ∈ runPairs (new (some "A") (Except.error ())) [1000, 1000, 1001],
      p.2 < 2 ^ 64) ∧
    List.Pairwise (· ≠ ·)
      (runGen (new (some "A") (Except.error ())) [1000, 1000, 1001]).1 :=
  ⟨by simp [List.chain'_cons], by decide,
    generate_pairwise_distinct (new (some "A") (Except.error ())) [1000, 1000, 1001]
      (by simp [List.chain'_cons]) (by decide)⟩

/-- C3 (counterexample): as stated, the claim is false for a clock that moves
backwards: calls at 5 ms and then 3 ms record the pairs (5, 0) and (3, 0),
which are not strictly increasing lexicographically. -/
theorem runPairs_strict_increase_cex :
    ¬ List.Chain' pairLt (runPairs (new (some "A") (Except.error ())) [5, 3]) := by
  have h : runPairs (new (some "A") (Except.error ())) [5, 3] = [(5, 0), (3, 0)] := rfl
  rw [h, List.chain'_cons]
  simp [pairLt]

/-- C3 (amended): provided the clock readings observed by successive calls
are non-decreasing, the recorded (last_timestamp, counter) pairs are strictly
increasing under lexicographic order. -/
theorem runPairs_strict_increase_of_mono (s : SQUIDv0) (ts : List Nat)
    (hclock : List.Chain' (· ≤ ·) ts) :
    List.Chain' pairLt (runPairs s ts) :=
  runPairs_chain_of_mono ts s hclock

theorem runPairs_strict_increase_witness :
    List.Chain' (· ≤ ·) [5, 5, 6] ∧
    List.Chain' pairLt (runPairs (new (some "A") (Except.error ())) [5, 5, 6]) :=
  ⟨by simp [List.chain'_cons],
    runPairs_strict_increase_of_mono (new (some "A") (Except.error ())) [5, 5, 6]
      (by simp [List.chain'_cons])⟩

/-- C4: for two consecutive calls to generate, if the second call observes
the timestamp recorded by the first, its counter is exactly one greater;
otherwise its counter is 0 and its last_timestamp is the newly observed
timestamp. -/
theorem counter_step_spec (s : SQUIDv0) (t₁ t₂ : Nat) :
    (t₂ = (generate s (ClockReading.atMillis t₁)).2.last_timestamp →
        (generate (generate s (ClockReading.atMillis t₁)).2
            (ClockReading.atMillis t₂)).2.counter =
          (generate s (ClockReading.atMillis t₁)).2.counter + 1) ∧
    (t₂ ≠ (generate s (ClockReading.atMillis t₁)).2.last_timestamp →
        (generate (generate s (ClockReading.atMillis t₁)).2
            (ClockReading.atMillis t₂)).2.counter = 0 ∧
        (generate (generate s (ClockReading.atMillis t₁)).2
            (ClockReading.atMillis t₂)).2.last_timestamp = t₂) := by
  have hgen : ∀ (u : SQUIDv0) (t : Nat),
      (generate u (ClockReading.atMillis t)).2 = (genStep u t).2 := fun _ _ => rfl
  simp only [hgen]
  constructor
  · intro h
    rw [genStep_counter, if_pos h]
  · intro h
    rw [genStep_counter, if_neg h, genStep_last]
    exact ⟨rfl, rfl⟩

theorem counter_step_spec_witness :
    ((1000 : Nat) =
        (generate (new (some "A") (Except.error ()))
          (ClockReading.atMillis 1000)).2.last_timestamp ∧
      (generate (generate (new (some "A") (Except.error ()))
            (ClockReading.atMillis 1000)).2 (ClockReading.atMillis 1000)).2.counter =
        (generate (new (some "A") (Except.error ()))
          (ClockReading.atMillis 1000)).2.counter + 1) ∧
    ((1001 : Nat) ≠
        (generate (new (some "A") (Except.error ()))
          (ClockReading.atMillis 1000)).2.last_timestamp ∧
      (generate (generate (new (some "A") (Except.error ()))
            (ClockReading.atMillis 1000)).2 (ClockReading.atMillis 1001)).2.counter = 0 ∧
      (generate (generate (new (some "A") (Except.error ()))
            (ClockReading.atMillis 1000)).2
          (ClockReading.atMillis 1001)).2.last_timestamp = 1001) :=
  ⟨⟨by decide,
      (counter_step_spec (new (some "A") (Except.error ())) 1000 1000).1 (by decide)⟩,
    ⟨by decide,
      (counter_step_spec (new (some "A") (Except.error ())) 1000 1001).2 (by decide)⟩⟩

/-- C5: constructed with machine id "AAAA" and clock readings 1000, 1000,
1001 ms, the three calls return "AAAA-1000-0000", "AAAA-1000-0001",
"AAAA-1001-0000". -/
theorem scenario_three_calls :
    (runGen (new (some "AAAA") (Except.error ())) [1000, 1000, 1001]).1 =
      ["AAAA-1000-0000", "AAAA-1000-0001", "AAAA-1001-0000"] := by
  decide

/-- C6: every generated string ends in the counter rendered in decimal and
left-zero-padded to a minimum width of 4 digits; counters below 10000 render
as exactly 4 digits, larger counters untruncated.  In the §8 scenario at a
constant 5 ms clock, the 10000th call (index 9999) has counter text "9999"
and the 10001st (index 10000) has counter text "10000". -/
theorem counter_field_padding :
    (∀ (s : SQUIDv0) (t : Nat),
      (genStep s t).1 = mkId s.device_uuid t ((genStep s t).2.counter) ∧
      ((genStep s t).2.counter < 10000 →
        (pad4 (natRepr ((genStep s t).2.counter))).length = 4) ∧
      (10000 ≤ (genStep s t).2.counter →
        pad4 (natRepr ((genStep s t).2.counter)) =
          natRepr ((genStep s t).2.counter))) ∧
    (runGen (new (some "X") (Except.error ())) (List.replicate 10001 5)).1[9999]? =
      some "X-5-9999" ∧
    (runGen (new (some "X") (Except.error ())) (List.replicate 10001 5)).1[10000]? =
      some "X-5-10000" := by
  refine ⟨fun s t => ⟨genStep_fst s t, fun h => pad4_natRepr_length_of_lt h,
    fun h => pad4_natRepr_of_ge h⟩, scenario_out_9999, scenario_out_10000⟩

theorem counter_field_padding_witness :
    ((genStep ⟨"A", 3, 7⟩ 7).2.counter < 10000 ∧
      (pad4 (natRepr ((genStep ⟨"A", 3, 7⟩ 7).2.counter))).length = 4) ∧
    (10000 ≤ (genStep ⟨"A", 10500, 7⟩ 7).2.counter ∧
      pad4 (natRepr ((genStep ⟨"A", 10500, 7⟩ 7).2.counter)) =
        natRepr ((genStep ⟨"A", 10500, 7⟩ 7).2.counter)) :=
  ⟨⟨by decide, (counter_field_padding.1 ⟨"A", 3, 7⟩ 7).2.1 (by decide)⟩,
    ⟨by decide, (counter_field_padding.1 ⟨"A", 10500, 7⟩ 7).2.2 (by decide)⟩⟩

/-- C7: when the clock facility reports a time before the Unix epoch,
generate returns no string and leaves the state exactly as it was. -/
theorem before_epoch_fatal (s : SQUIDv0) :
    generate s ClockReading.beforeEpoch = (none, s) := rfl

/-- C8: on every clock reading at or after the Unix epoch, generate succeeds
and returns a string; no failure path other than the before-epoch fault is
reachable. -/
theorem generate_total (s : SQUIDv0) (clock : ClockReading)
    (h : clock ≠ ClockReading.beforeEpoch) :
    ∃ id : String, (generate s clock).1 = some id := by
  cases clock with
  | beforeEpoch => exact absurd rfl h
  | atMillis t => exact ⟨(genStep s t).1, rfl⟩

theorem generate_total_witness :
    ClockReading.atMillis 5 ≠ ClockReading.beforeEpoch ∧
    ∃ id : String,
      (generate (new (some "A") (Except.error ())) (ClockReading.atMillis 5)).1 =
        some id :=
  ⟨by decide,
    generate_total (new (some "A") (Except.error ())) (ClockReading.atMillis 5)
      (by decide)⟩

/-- C9: new returns counter = 0 and last_timestamp = 0; an explicit machine
identifier is stored verbatim and appears as the first field of every
generated identifier; when no identifier is supplied and resolution fails,
the stored identifier is the 36-character all-zero UUID text. -/
theorem new_spec (mid : String) (res : Except Unit String) (t : Nat) (s : SQUIDv0) :
    (new (some mid) res).counter = 0 ∧
    (new (some mid) res).last_timestamp = 0 ∧
    (new none res).counter = 0 ∧
    (new none res).last_timestamp = 0 ∧
    (new (some mid) res).device_uuid = mid ∧
    (res = Except.error () →
      (new none res).device_uuid = "00000000-0000-0000-0000-000000000000") ∧
    (s.device_uuid = mid →
      (genStep s t).1 =
        mid ++ "-" ++ natRepr t ++ "-" ++ pad4 (natRepr ((genStep s t).2.counter)) ∧
      (genStep s t).2.device_uuid = mid) := by
  refine ⟨rfl, rfl, rfl, rfl, rfl, ?_, ?_⟩
  · intro h
    subst h
    rfl
  · intro h
    constructor
    · rw [genStep_fst, mkId, h]
    · rw [genStep_dev, h]

theorem new_spec_witness :
    (new none (Except.error ())).device_uuid =
      "00000000-0000-0000-0000-000000000000" ∧
    ((genStep ⟨"AAAA", 2, 3⟩ 7).1 =
        "AAAA" ++ "-" ++ natRepr 7 ++ "-" ++
          pad4 (natRepr ((genStep ⟨"AAAA", 2, 3⟩ 7).2.counter)) ∧
      (genStep ⟨"AAAA", 2, 3⟩ 7).2.device_uuid = "AAAA") :=
  ⟨(new_spec "AAAA" (Except.error ()) 7 ⟨"AAAA", 2, 3⟩).2.2.2.2.2.1 rfl,
    (new_spec "AAAA" (Except.error ()) 7 ⟨"AAAA", 2, 3⟩).2.2.2.2.2.2 rfl⟩

/-- C10: a clock reading at or after the epoch but before the stored
last_timestamp still succeeds: the counter resets to 0, last_timestamp moves
back to the reading, and the returned string embeds that earlier reading. -/
theorem clock_backwards_resets (s : SQUIDv0) (t : Nat) (h : t < s.last_timestamp) :
    (generate s (ClockReading.atMillis t)).1 = some (mkId s.device_uuid t 0) ∧
    (generate s (ClockReading.atMillis t)).2.counter = 0 ∧
    (generate s (ClockReading.atMillis t)).2.last_timestamp = t := by
  have hne : t ≠ s.last_timestamp := by omega
  have hgen : (generate s (ClockReading.atMillis t)).2 = (genStep s t).2 := rfl
  have hc : (genStep s t).2.counter = 0 := by
    rw [genStep_counter, if_neg hne]
  refine ⟨?_, by rw [hgen, hc], by rw [hgen, genStep_last]⟩
  show some (genStep s t).1 = some (mkId s.device_uuid t 0)
  rw [genStep_fst, hc]

theorem clock_backwards_resets_witness :
    (3 : Nat) < (⟨"A", 0, 5⟩ : SQUIDv0).last_timestamp ∧
    ((generate ⟨"A", 0, 5⟩ (ClockReading.atMillis 3)).1 =
        some (mkId (⟨"A", 0, 5⟩ : SQUIDv0).device_uuid 3 0) ∧
      (generate ⟨"A", 0, 5⟩ (ClockReading.atMillis 3)).2.counter = 0 ∧
      (generate ⟨"A", 0, 5⟩ (ClockReading.atMillis 3)).2.last_timestamp = 3) :=
  ⟨by decide, clock_backwards_resets ⟨"A", 0, 5⟩ 3 (by decide)⟩

end Squid
